import Mathlib

/-!
Verification of the PDF-extraction core of the rd-system repository
(src/services/excelGenerator.ts, src/services/pdfParser.ts).

The model below is a shallow embedding of the TypeScript source.
Strings are modelled as lists of Unicode scalar values (`List Char`);
all characters appearing in the programs and in the claims are in the
Basic Multilingual Plane, where JavaScript's UTF-16 code units coincide
with Unicode scalar values, so this representation is faithful.

The heuristic extractors in the source are built from JavaScript regular
expressions.  Each regular expression used by the source is linear
(a sequence of literals, character classes, greedy repetitions, an
optional single-character class, and ordered alternation of literals),
so we embed a small backtracking matcher (`matchToks`) implementing the
exact leftmost / greedy-with-backtracking semantics of the JavaScript
engine for such patterns, and express every source regex as a token
list for it.
-/

/-- Strings of the model: lists of Unicode scalar values. -/
abbrev JStr := List Char

/-- Convert a Lean string literal into the model representation. -/
def jstr (s : String) : JStr := s.toList

/-- The set matched by JavaScript `\s` (also the set trimmed by
`String.prototype.trim`): ASCII whitespace, NBSP, the Unicode space
separators, the line separators and the BOM. -/
def isWs (c : Char) : Bool :=
  let n := c.toNat
  n = 0x09 || n = 0x0A || n = 0x0B || n = 0x0C || n = 0x0D || n = 0x20 ||
  n = 0xA0 || n = 0x1680 || (0x2000 ≤ n && n ≤ 0x200A) ||
  n = 0x2028 || n = 0x2029 || n = 0x202F || n = 0x205F || n = 0x3000 || n = 0xFEFF

/-- JavaScript `\d`: the ASCII digits. -/
def isAsciiDigit (c : Char) : Bool :=
  0x30 ≤ c.toNat && c.toNat ≤ 0x39

/-- The class `[0-9０-９]` used by the formula translator:
half-width or full-width digits. -/
def isNumDigit (c : Char) : Bool :=
  isAsciiDigit c || (0xFF10 ≤ c.toNat && c.toNat ≤ 0xFF19)

/-- The class `[0-9０-９,，]` used by the yen-amount rules. -/
def isAmtDigit (c : Char) : Bool :=
  isNumDigit c || c = ',' || c = '，'

/-- A character counted by `countJapaneseChars`:
the source counts matches of `[぀-ゟ゠-ヿ一-龯]`
(Hiragana, Katakana, CJK ideographs). -/
def isJapaneseChar (c : Char) : Bool :=
  let n := c.toNat
  (0x3040 ≤ n && n ≤ 0x309F) || (0x30A0 ≤ n && n ≤ 0x30FF) ||
  (0x4E00 ≤ n && n ≤ 0x9FAF)

/-- `countJapaneseChars` (excelGenerator.ts): the number of characters of
the text lying in the Japanese script ranges. -/
def countJapaneseChars (text : JStr) : Nat :=
  (text.filter isJapaneseChar).length

/-- `JAPANESE_CHAR_THRESHOLD` (excelGenerator.ts / pdfParser.ts). -/
def JAPANESE_CHAR_THRESHOLD : Nat := 50

/-- JavaScript `String.prototype.trim`: remove whitespace from both ends. -/
def jtrim (cs : JStr) : JStr :=
  ((cs.dropWhile isWs).reverse.dropWhile isWs).reverse

/-! ## A backtracking matcher for the linear regexes of the source -/

/-- Tokens of the linear regular expressions used by the source:
a literal character, a single character from a class, an optional
character from a class (`[..]?`, greedy), greedy repetitions of a class
(`*`, `+`, `{lo,}`, `{lo,hi}`), and ordered alternation of literal words
(`(?:費|料|金|手当)`). -/
inductive Tok where
  | lit : Char → Tok
  | cls : (Char → Bool) → Tok
  | opt : (Char → Bool) → Tok
  | star : (Char → Bool) → Tok
  | plus : (Char → Bool) → Tok
  | repMin : (Char → Bool) → Nat → Tok
  | rep : (Char → Bool) → Nat → Nat → Tok
  | alts : List (List Char) → Tok

/-- Greedy repetition with backtracking: try to consume `k` characters
(the caller passes the largest feasible `k`), retrying with smaller
counts down to `lo` until the continuation `cont` succeeds on the rest.
This is exactly the backtracking order of a greedy quantifier. -/
def greedyFrom (cont : List Char → Option (List Nat)) (xs : List Char)
    (lo : Nat) : Nat → Option (List Nat)
  | 0 =>
    if lo = 0 then (cont xs).map (fun ns => 0 :: ns) else none
  | k + 1 =>
    if k + 1 < lo then none
    else
      match cont (xs.drop (k + 1)) with
      | some ns => some ((k + 1) :: ns)
      | none => greedyFrom cont xs lo k

/-- Ordered alternation of literal words, with backtracking into the
continuation: try each word in order; a word is taken only if it is a
prefix of the input and the continuation succeeds after it. -/
def tryAlts (cont : List Char → Option (List Nat)) :
    List (List Char) → List Char → Option (List Nat)
  | [], _ => none
  | l :: ls, xs =>
    if xs.take l.length = l then
      match cont (xs.drop l.length) with
      | some ns => some (l.length :: ns)
      | none => tryAlts cont ls xs
    else tryAlts cont ls xs

/-- Match a token list against a prefix of the input, with the
backtracking semantics of the JavaScript regex engine (greedy
quantifiers, ordered alternation).  On success, returns the number of
characters consumed by each token, in order. -/
def matchToks : List Tok → List Char → Option (List Nat)
  | [], _ => some []
  | Tok.lit _ :: _, [] => none
  | Tok.lit c :: ts, x :: xs =>
    if x = c then (matchToks ts xs).map (fun ns => 1 :: ns) else none
  | Tok.cls _ :: _, [] => none
  | Tok.cls p :: ts, x :: xs =>
    if p x then (matchToks ts xs).map (fun ns => 1 :: ns) else none
  | Tok.opt _ :: ts, [] => (matchToks ts []).map (fun ns => 0 :: ns)
  | Tok.opt p :: ts, x :: xs =>
    if p x then
      match matchToks ts xs with
      | some ns => some (1 :: ns)
      | none => (matchToks ts (x :: xs)).map (fun ns => 0 :: ns)
    else (matchToks ts (x :: xs)).map (fun ns => 0 :: ns)
  | Tok.star p :: ts, xs =>
    greedyFrom (matchToks ts) xs 0 ((xs.takeWhile p).length)
  | Tok.plus p :: ts, xs =>
    greedyFrom (matchToks ts) xs 1 ((xs.takeWhile p).length)
  | Tok.repMin p lo :: ts, xs =>
    greedyFrom (matchToks ts) xs lo ((xs.takeWhile p).length)
  | Tok.rep p lo hi :: ts, xs =>
    greedyFrom (matchToks ts) xs lo (min hi ((xs.takeWhile p).length))
  | Tok.alts ls :: ts, xs => tryAlts (matchToks ts) ls xs

/-! ## Splitting (JavaScript `String.prototype.split` on a regex) -/

/-- Leftmost match of a delimiter matcher `m`: the first position `p`
(scanning left to right) at which `m` matches, together with the length
of that match. -/
def findM (m : List Char → Option Nat) : List Char → Option (Nat × Nat)
  | [] =>
    match m [] with
    | some k => some (0, k)
    | none => none
  | c :: t =>
    match m (c :: t) with
    | some k => some (0, k)
    | none => (findM m t).map (fun pk => (pk.1 + 1, pk.2))

/-- Fuel-driven splitter: cut the input at each leftmost delimiter match
and continue after it.  With fuel at least the length of the input this
is exactly JavaScript `split` for a delimiter that never matches the
empty string (all delimiters of the source consume at least one
character; `max 1` merely documents that fact for termination). -/
def splitGoM (m : List Char → Option Nat) : Nat → List Char → List JStr
  | 0, cs => [cs]
  | fuel + 1, cs =>
    match findM m cs with
    | none => [cs]
    | some (p, len) => cs.take p :: splitGoM m fuel (cs.drop (p + max 1 len))

/-- JavaScript `String.prototype.split` on a delimiter matcher. -/
def splitM (m : List Char → Option Nat) (cs : JStr) : List JStr :=
  splitGoM m cs.length cs

/-! ## Scanning all matches (JavaScript `String.prototype.matchAll`) -/

/-- Fuel-driven scan: at each position try the matcher `m` (which
returns a capture value and the total match length); on a match, record
the capture and resume after the match; otherwise advance one
character.  This is JavaScript `matchAll` with a `g`-flagged regex. -/
def scanGoM {α : Type} (m : List Char → Option (α × Nat)) :
    Nat → List Char → List α
  | 0, _ => []
  | fuel + 1, cs =>
    match m cs with
    | some (a, len) => a :: scanGoM m fuel (cs.drop (max 1 len))
    | none =>
      match cs with
      | [] => []
      | _ :: t => scanGoM m fuel t

/-- All matches of `m` over the text, leftmost first, non-overlapping. -/
def scanM {α : Type} (m : List Char → Option (α × Nat)) (cs : JStr) : List α :=
  scanGoM m cs.length cs

/-! ## Data model (pdfParser.ts / excelGenerator.ts interfaces) -/

/-- `extractionMethod` tag of `ParsedPDFContent`:
`'pdf-parse'` (native) or `'gemini-vision'` (vision fallback). -/
inductive ExtractionMethod where
  | pdfParse
  | geminiVision
deriving DecidableEq, Repr

/-- Metadata of a parsed document. -/
structure PDFMetadata where
  title : Option JStr
  author : Option JStr
  pageCount : Nat
deriving DecidableEq, Repr

/-- `ParsedPDFContent` (excelGenerator.ts). -/
structure ParsedPDFContent where
  rawText : JStr
  pages : List JStr
  metadata : PDFMetadata
  extractionMethod : ExtractionMethod
deriving DecidableEq, Repr

/-- The result of the native text-layer extraction collaborator
(`pdf-parse`): `{text, numpages, info:{Title?, Author?}}`. -/
structure PDFData where
  text : JStr
  numpages : Nat
  infoTitle : Option JStr
  infoAuthor : Option JStr
deriving DecidableEq, Repr

/-- `RequirementItem` (excelGenerator.ts / pdfParser.ts). -/
structure RequirementItem where
  category : JStr
  name : JStr
  description : JStr
  inputType : Option JStr
  required : Option Bool
deriving DecidableEq, Repr

/-- `CalculationFormula`.  (The source field `variables` is rendered
`variables'` because `variables` is a reserved word in Lean.) -/
structure CalculationFormula where
  name : JStr
  description : JStr
  formula : JStr
  variables' : List JStr
  conditions : Option (List JStr)
deriving DecidableEq, Repr

/-- `FeeItem`. -/
structure FeeItem where
  name : JStr
  description : JStr
  amount : Option JStr
  conditions : Option (List JStr)
deriving DecidableEq, Repr

/-- `TableData`. -/
structure TableData where
  title : JStr
  headers : List JStr
  rows : List (List JStr)
deriving DecidableEq, Repr

/-- `ExtractedRequirements`. -/
structure ExtractedRequirements where
  documentTitle : JStr
  inputItems : List RequirementItem
  calculationItems : List RequirementItem
  formulas : List CalculationFormula
  fees : List FeeItem
  otherRequirements : List JStr
  tables : List TableData
deriving DecidableEq, Repr

/-! ## The extraction orchestrator (`parsePDFBuffer`, excelGenerator.ts) -/

/-- The native page delimiter `/\n\s*-\s*\d+\s*-\s*\n/`:
newline, whitespace, hyphen, whitespace, digits, whitespace, hyphen,
whitespace, newline. -/
def pageDelimToks : List Tok :=
  [Tok.lit '\n', Tok.star isWs, Tok.lit '-', Tok.star isWs,
   Tok.plus isAsciiDigit, Tok.star isWs, Tok.lit '-', Tok.star isWs,
   Tok.lit '\n']

/-- Matcher for the native page delimiter (total match length). -/
def pageDelimM (cs : List Char) : Option Nat :=
  (matchToks pageDelimToks cs).map (fun ns => ns.sum)

/-- The vision-fallback page delimiter: the literal marker
`--- ページ区切り ---` demanded from the model by the prompt. -/
def visionDelimToks : List Tok :=
  (jstr "--- ページ区切り ---").map Tok.lit

/-- Matcher for the vision-fallback page delimiter. -/
def visionDelimM (cs : List Char) : Option Nat :=
  (matchToks visionDelimToks cs).map (fun ns => ns.sum)

/-- The page lists of both paths drop fragments that are empty after
trimming (`.filter((p) => p.trim())`). -/
def keepPage (p : JStr) : Bool := decide (jtrim p ≠ [])

/-- Pages of the native path:
`data.text.split(/\n\s*-\s*\d+\s*-\s*\n/).filter((p) => p.trim())`. -/
def nativePages (text : JStr) : List JStr :=
  (splitM pageDelimM text).filter keepPage

/-- Pages of the vision path:
`ocrResult.text.split(/--- ページ区切り ---/).filter((p) => p.trim())`. -/
def visionPages (text : JStr) : List JStr :=
  (splitM visionDelimM text).filter keepPage

/-- `extractTextWithGeminiVision` (excelGenerator.ts), modulo the
network call: the hosted model's reply is the parameter `visionText`;
the function passes the caller-supplied `pageCount` straight through. -/
def extractTextWithGeminiVision (visionText : JStr) (pageCount : Nat) :
    JStr × Nat :=
  (visionText, pageCount)

/-- `parsePDFBuffer` (excelGenerator.ts), with the two collaborators'
outputs as parameters: `data` is the native `pdf-parse` result and
`visionText` the text the vision model would return if called. -/
def parsePDFBuffer (data : PDFData) (visionText : JStr) : ParsedPDFContent :=
  let japaneseCount := countJapaneseChars data.text
  if JAPANESE_CHAR_THRESHOLD ≤ japaneseCount then
    { rawText := data.text
      pages := nativePages data.text
      metadata :=
        { title := data.infoTitle, author := data.infoAuthor,
          pageCount := data.numpages }
      extractionMethod := ExtractionMethod.pdfParse }
  else
    let ocrResult := extractTextWithGeminiVision visionText data.numpages
    { rawText := ocrResult.1
      pages := visionPages ocrResult.1
      metadata :=
        { title := data.infoTitle, author := data.infoAuthor,
          pageCount := ocrResult.2 }
      extractionMethod := ExtractionMethod.geminiVision }

/-! ## Character classes of the extractor regexes -/

/-- `[「『]` — opening Japanese quotation brackets. -/
def isOpenBra (c : Char) : Bool := c = '「' || c = '『'

/-- `[」』]` — closing Japanese quotation brackets. -/
def isCloseBra (c : Char) : Bool := c = '」' || c = '』'

/-- `[^「『」』\n]` — the term class of the definition pattern. -/
def isDefNameChar (c : Char) : Bool :=
  !(isOpenBra c || isCloseBra c || c = '\n')

/-- `[、,]` — the Japanese or ASCII comma. -/
def isCommaJa (c : Char) : Bool := c = '、' || c = ','

/-- `[^。]` — any character except the Japanese full stop. -/
def isNotPeriod (c : Char) : Bool := c ≠ '。'

/-- `[^。\n]`. -/
def isNotPeriodNl (c : Char) : Bool := c ≠ '。' && c ≠ '\n'

/-- `[^\n]`. -/
def isNotNl (c : Char) : Bool := c ≠ '\n'

/-- `[^、。\n]` — the variable-name class of `extractVariables`. -/
def isVarChar (c : Char) : Bool := !(c = '、' || c = '。' || c = '\n')

/-- `(?:料|額|費|金|率)` — the suffixes accepted by `extractVariables`. -/
def isVarSuffix (c : Char) : Bool :=
  c = '料' || c = '額' || c = '費' || c = '金' || c = '率'

/-- `[はを]`. -/
def isHaWo (c : Char) : Bool := c = 'は' || c = 'を'

/-- The test `/[0-9０-９]|割|分|倍|円|率|額/` applied to a formula
candidate's description. -/
def hasCalcSignal (desc : JStr) : Bool :=
  desc.any (fun c =>
    isNumDigit c || c = '割' || c = '分' || c = '倍' || c = '円' ||
    c = '率' || c = '額')

/-! ## `extractInputItems` (excelGenerator.ts) -/

/-- The definition pattern `/[「『]?([^「『」』\n]+)[」』]?とは[、,]([^。]+)/g`. -/
def defToks : List Tok :=
  [Tok.opt isOpenBra, Tok.plus isDefNameChar, Tok.opt isCloseBra,
   Tok.lit 'と', Tok.lit 'は', Tok.cls isCommaJa, Tok.plus isNotPeriod]

/-- Matcher for the definition pattern, returning the two capture
groups (term, description) and the total match length. -/
def defMatch (cs : List Char) : Option ((JStr × JStr) × Nat) :=
  match matchToks defToks cs with
  | some [a, b, c, d, e, f, g] =>
    some ((((cs.drop a).take b),
           ((cs.drop (a + b + c + d + e + f)).take g)),
          a + b + c + d + e + f + g)
  | _ => none

/-- `extractInputItems`: one `RequirementItem` per match of the
definition idiom, category `定義`, `inputType` `"text"`. -/
def extractInputItems (text : JStr) : List RequirementItem :=
  (scanM defMatch text).map (fun m =>
    { category := jstr "定義"
      name := jtrim m.1
      description := jtrim m.2
      inputType := some (jstr "text")
      required := none })

/-! ## The formula translator (`convertToFormula`, `toHalfWidth`) -/

/-- `toHalfWidth`: full-width digits are mapped to half-width by the
fixed code-point offset `-0xFEE0`; all other characters are kept. -/
def toHalfWidth (cs : JStr) : JStr :=
  cs.map (fun c =>
    if 0xFF10 ≤ c.toNat && c.toNat ≤ 0xFF19 then
      Char.ofNat (c.toNat - 0xFEE0)
    else c)

/-- One global replacement pass
`formula.replace(/(<digit class>+)<suffix>/g, ...)`.
`dig` is the digit class of the rule, `suf` matches the unit suffix at
the position after a digit run (returning its length), `emit` renders
the replacement from the captured digit run.

A match of such a rule starts at a digit and, by greediness, captures
the whole maximal digit run (a shorter capture would have to be
followed by a digit, which the suffix never is); if the maximal run is
not followed by the suffix, no position inside the run can start a
match either, so the scan resumes after the run. -/
def replaceRule (dig : Char → Bool) (suf : List Char → Option Nat)
    (emit : JStr → JStr) : Nat → List Char → JStr
  | 0, cs => cs
  | _ + 1, [] => []
  | fuel + 1, c :: cs =>
    if dig c then
      let run := (c :: cs).takeWhile dig
      let rest := (c :: cs).dropWhile dig
      match suf rest with
      | some k => emit run ++ replaceRule dig suf emit fuel (rest.drop k)
      | none => run ++ replaceRule dig suf emit fuel rest
    else c :: replaceRule dig suf emit fuel cs

/-- Suffix of the rule `/([0-9０-９]+)割/g`. -/
def sufWari : List Char → Option Nat
  | '割' :: _ => some 1
  | _ => none

/-- Suffix of the rule `/([0-9０-９]+)分/g`. -/
def sufBu : List Char → Option Nat
  | '分' :: _ => some 1
  | _ => none

/-- Suffix of the rule `/([0-9０-９]+)[%％]/g`. -/
def sufPct : List Char → Option Nat
  | c :: _ => if c = '%' || c = '％' then some 1 else none
  | _ => none

/-- Suffix of the rule `/([0-9０-９]+)倍/g`. -/
def sufBai : List Char → Option Nat
  | '倍' :: _ => some 1
  | _ => none

/-- Suffix of the rule `/([0-9０-９,，]+)円/g`. -/
def sufYen : List Char → Option Nat
  | '円' :: _ => some 1
  | _ => none

/-- `convertToFormula`: the five replacement passes applied in
sequence, each over the output of the previous one. -/
def convertToFormula (description : JStr) : JStr :=
  let f1 := replaceRule isNumDigit sufWari
    (fun n => toHalfWidth n ++ jstr " * 0.1") description.length description
  let f2 := replaceRule isNumDigit sufBu
    (fun n => toHalfWidth n ++ jstr " * 0.01") f1.length f1
  let f3 := replaceRule isNumDigit sufPct
    (fun n => toHalfWidth n ++ jstr " * 0.01") f2.length f2
  let f4 := replaceRule isNumDigit sufBai
    (fun n => jstr "* " ++ toHalfWidth n) f3.length f3
  replaceRule isAmtDigit sufYen
    (fun n => toHalfWidth (n.filter (fun c => !(c = ',' || c = '，'))))
    f4.length f4

/-! ## `extractVariables` (excelGenerator.ts) -/

/-- The variable pattern `/([^、。\n]+(?:料|額|費|金|率))/g`. -/
def varToks : List Tok := [Tok.plus isVarChar, Tok.cls isVarSuffix]

/-- Matcher for the variable pattern: the capture is the whole match. -/
def varMatch (cs : List Char) : Option (JStr × Nat) :=
  match matchToks varToks cs with
  | some [a, b] => some (cs.take (a + b), a + b)
  | _ => none

/-- The raw (undeduplicated) variable matches of a description. -/
def variableMatches (description : JStr) : List JStr :=
  scanM varMatch description

/-- `extractVariables`: push each match unless already present
(`if (!variables.includes(match[1])) variables.push(match[1])`). -/
def extractVariables (description : JStr) : List JStr :=
  (variableMatches description).foldl
    (fun acc v => if v ∈ acc then acc else acc ++ [v]) []

/-! ## `extractFormulas` (excelGenerator.ts) -/

/-- The formula pattern `/([^。\n]{5,50})は[、,]([^。]+)とする/g`. -/
def formulaToks : List Tok :=
  [Tok.rep isNotPeriodNl 5 50, Tok.lit 'は', Tok.cls isCommaJa,
   Tok.plus isNotPeriod, Tok.lit 'と', Tok.lit 'す', Tok.lit 'る']

/-- Matcher for the formula pattern, returning (name, description). -/
def formulaMatch (cs : List Char) : Option ((JStr × JStr) × Nat) :=
  match matchToks formulaToks cs with
  | some [a, b, c, d, e, f, g] =>
    some (((cs.take a), ((cs.drop (a + b + c)).take d)),
          a + b + c + d + e + f + g)
  | _ => none

/-- `extractFormulas`: matches of the `は…とする` idiom whose
description contains a numeral or a unit-like token. -/
def extractFormulas (text : JStr) : List CalculationFormula :=
  (scanM formulaMatch text).filterMap (fun m =>
    let name := jtrim m.1
    let desc := jtrim m.2
    if hasCalcSignal desc then
      some { name := name
             description := desc
             formula := convertToFormula desc
             variables' := extractVariables desc
             conditions := none }
    else none)

/-! ## `extractFees` (excelGenerator.ts) -/

/-- The fee pattern `/([^。\n]+(?:費|料|金|手当))[はを][、,]([^。]+)/g`. -/
def feeToks : List Tok :=
  [Tok.plus isNotPeriodNl,
   Tok.alts [jstr "費", jstr "料", jstr "金", jstr "手当"],
   Tok.cls isHaWo, Tok.cls isCommaJa, Tok.plus isNotPeriod]

/-- Matcher for the fee pattern, returning (name, description); the
first capture group spans the name run and the fee suffix. -/
def feeMatch (cs : List Char) : Option ((JStr × JStr) × Nat) :=
  match matchToks feeToks cs with
  | some [a, b, c, d, e] =>
    some (((cs.take (a + b)), ((cs.drop (a + b + c + d)).take e)),
          a + b + c + d + e)
  | _ => none

/-- The amount pattern `/([0-9０-９,，]+)\s*円/` (no `g` flag: only the
first match is used). -/
def amtToks : List Tok := [Tok.plus isAmtDigit, Tok.star isWs, Tok.lit '円']

/-- Matcher for the amount pattern, returning the digit-run capture. -/
def amtMatch (cs : List Char) : Option (JStr × Nat) :=
  match matchToks amtToks cs with
  | some [a, b, c] => some (cs.take a, a + b + c)
  | _ => none

/-- The first (leftmost) amount match of a description, if any. -/
def firstAmount (desc : JStr) : Option JStr :=
  (scanM amtMatch desc).head?

/-- `extractFees`: one `FeeItem` per match; `amount` is the first yen
amount of the description with separators stripped and digits
half-width, when present. -/
def extractFees (text : JStr) : List FeeItem :=
  (scanM feeMatch text).map (fun m =>
    let name := jtrim m.1
    let desc := jtrim m.2
    { name := name
      description := desc
      amount := (firstAmount desc).map (fun n =>
        toHalfWidth (n.filter (fun c => !(c = ',' || c = '，'))))
      conditions := none })

/-! ## `extractTables` (excelGenerator.ts) -/

/-- Head of the table pattern
`/[「『]?別表\s*(\d+)[」』]?\s*([^\n]+)\n/` (the part before the lazy
body). -/
def tableHeadToks : List Tok :=
  [Tok.opt isOpenBra, Tok.lit '別', Tok.lit '表', Tok.star isWs,
   Tok.plus isAsciiDigit, Tok.opt isCloseBra, Tok.star isWs,
   Tok.plus isNotNl, Tok.lit '\n']

/-- The lookahead `(?=[「『]?別表|付則|以\s*上|$)` terminating the lazy
body of the table pattern. -/
def tableStop (cs : List Char) : Bool :=
  (matchToks [Tok.opt isOpenBra, Tok.lit '別', Tok.lit '表'] cs).isSome ||
  (matchToks [Tok.lit '付', Tok.lit '則'] cs).isSome ||
  (matchToks [Tok.lit '以', Tok.star isWs, Tok.lit '上'] cs).isSome ||
  cs.isEmpty

/-- Length taken by the lazy body `([\s\S]*?)`: the smallest prefix
after which the lookahead holds (it always holds at the end of input,
the `$` alternative). -/
def lazyLen : List Char → Nat
  | [] => 0
  | c :: t => if tableStop (c :: t) then 0 else lazyLen t + 1

/-- Matcher for the whole table pattern, returning the captures
(number, title line, body) and the total match length (the lookahead is
not consumed). -/
def tableMatch (cs : List Char) : Option ((JStr × JStr × JStr) × Nat) :=
  match matchToks tableHeadToks cs with
  | some [a, b, c, d, e, f, g, h, i] =>
    let headLen := a + b + c + d + e + f + g + h + i
    let rest := cs.drop headLen
    let j := lazyLen rest
    some (((cs.drop (a + b + c + d)).take e,
           (cs.drop (a + b + c + d + e + f + g)).take h,
           rest.take j),
          headLen + j)
  | _ => none

/-- The line delimiter of `content.split('\n')`. -/
def nlDelimM (cs : List Char) : Option Nat :=
  match cs with
  | '\n' :: _ => some 1
  | _ => none

/-- The cell delimiter `/\s{2,}|\t/` of a table row: a run of at least
two whitespace characters, or a tab. -/
def cellDelimM (cs : List Char) : Option Nat :=
  match matchToks [Tok.repMin isWs 2] cs with
  | some ns => some ns.sum
  | none =>
    match matchToks [Tok.lit '\t'] cs with
    | some ns => some ns.sum
    | none => none

/-- Split one body line into cells:
`l.split(/\s{2,}|\t/).filter((c) => c.trim())`. -/
def splitRow (l : JStr) : List JStr :=
  (splitM cellDelimM l).filter keepPage

/-- `extractTables`: one `TableData` per table-pattern match with a
non-empty body; headers are always empty; rows are the non-blank body
lines split into cells. -/
def extractTables (text : JStr) : List TableData :=
  (scanM tableMatch text).filterMap (fun m =>
    let title := jstr "別表" ++ m.1 ++ jstr " " ++ jtrim m.2.1
    let lines := (splitM nlDelimM m.2.2).filter keepPage
    if lines.isEmpty then none
    else some { title := title, headers := [], rows := lines.map splitRow })

/-! ## `extractRequirementsFromPDF` (excelGenerator.ts) -/

/-- The anchored title pattern `/^([^\n]+)/`: the first line of the
text, when it is non-empty. -/
def titleMatch (text : JStr) : Option JStr :=
  let r := text.takeWhile isNotNl
  if r.isEmpty then none else some r

/-- `extractRequirementsFromPDF`: parse, then run every heuristic
extractor over the raw text; `calculationItems` and
`otherRequirements` are the literal empty arrays of the source. -/
def extractRequirementsFromPDF (data : PDFData) (visionText : JStr) :
    ExtractedRequirements :=
  let parsed := parsePDFBuffer data visionText
  let text := parsed.rawText
  let documentTitle :=
    match titleMatch text with
    | some t => jtrim t
    | none => jstr "要件定義書"
  { documentTitle := documentTitle
    inputItems := extractInputItems text
    calculationItems := []
    formulas := extractFormulas text
    fees := extractFees text
    otherRequirements := []
    tables := extractTables text }

/-! ## Claim theorems -/

/-- C1: For every input PDF whose natively extracted text contains at
least 50 Japanese-script characters, `parsePDFBuffer` accepts the
native extraction result: it does not invoke the vision fallback (the
result is independent of what the vision model would return), tags the
result's provenance as native (`pdf-parse`), and produces pages by
splitting the raw text on the native page-footer pattern
`/\n\s*-\s*\d+\s*-\s*\n/` and dropping blank fragments. -/
theorem claim1_native_path (data : PDFData) (visionText : JStr)
    (h : JAPANESE_CHAR_THRESHOLD ≤ countJapaneseChars data.text) :
    parsePDFBuffer data visionText =
      { rawText := data.text
        pages := nativePages data.text
        metadata :=
          { title := data.infoTitle, author := data.infoAuthor,
            pageCount := data.numpages }
        extractionMethod := ExtractionMethod.pdfParse } := by
  unfold parsePDFBuffer
  rw [if_pos h]

/-- Witness for C1 at a concrete 50-character Japanese text. -/
theorem claim1_native_path_witness :
    parsePDFBuffer
      (PDFData.mk
        (jstr "あいうえおあいうえおあいうえおあいうえおあいうえおあいうえおあいうえおあいうえおあいうえおあいうえお")
        3 none none)
      (jstr "視覚モデルの出力") =
      ParsedPDFContent.mk
        (jstr "あいうえおあいうえおあいうえおあいうえおあいうえおあいうえおあいうえおあいうえおあいうえおあいうえお")
        [jstr "あいうえおあいうえおあいうえおあいうえおあいうえおあいうえおあいうえおあいうえおあいうえおあいうえお"]
        (PDFMetadata.mk none none 3) ExtractionMethod.pdfParse := by
  rw [claim1_native_path _ _ (by decide)]
  decide

/-- C2: For every input PDF whose natively extracted text contains
fewer than 50 Japanese-script characters, `parsePDFBuffer` invokes the
vision-fallback extractor, tags provenance `gemini-vision`, splits the
fallback text on the literal marker `--- ページ区切り ---`, and takes
`pageCount` from the native pass (`data.numpages`). -/
theorem claim2_vision_fallback (data : PDFData) (visionText : JStr)
    (h : countJapaneseChars data.text < JAPANESE_CHAR_THRESHOLD) :
    parsePDFBuffer data visionText =
      { rawText := visionText
        pages := visionPages visionText
        metadata :=
          { title := data.infoTitle, author := data.infoAuthor,
            pageCount := data.numpages }
        extractionMethod := ExtractionMethod.geminiVision } := by
  unfold parsePDFBuffer
  rw [if_neg (by omega)]
  rfl

/-- Witness for C2 at a concrete low-density text. -/
theorem claim2_vision_fallback_witness :
    parsePDFBuffer (PDFData.mk (jstr "scanned") 7 none none)
      (jstr "一枚目--- ページ区切り ---二枚目") =
      ParsedPDFContent.mk (jstr "一枚目--- ページ区切り ---二枚目")
        [jstr "一枚目", jstr "二枚目"]
        (PDFMetadata.mk none none 7) ExtractionMethod.geminiVision := by
  rw [claim2_vision_fallback _ _ (by decide)]
  decide

/-- C5 counterexample: the description `１１０倍` contains the
substring `１０倍`, yet its translation `* 110` does not contain
`* 10`, refuting the claim's universally quantified reading. -/
theorem claim5_counterexample :
    (jstr "１０倍" <:+: jstr "１１０倍") ∧
      convertToFormula (jstr "１１０倍") = jstr "* 110" ∧
      ¬ (jstr "* 10" <:+: convertToFormula (jstr "１１０倍")) := by
  refine ⟨⟨['１'], [], by decide⟩, by decide, ?_⟩
  rw [show convertToFormula (jstr "１１０倍") = jstr "* 110" from by decide]
  decide

/-- C5 (amended): the Formula Translator applied to the description
`3割` yields a string containing `3 * 0.1`, and applied to the
description `１０倍` (full-width) yields a string containing `* 10`;
and any full-width digit is converted to half-width by subtracting the
fixed code-point offset 0xFEE0. -/
theorem claim5_amended :
    (jstr "3 * 0.1" <:+: convertToFormula (jstr "3割")) ∧
      (jstr "* 10" <:+: convertToFormula (jstr "１０倍")) ∧
      ∀ c : Char, 0xFF10 ≤ c.toNat → c.toNat ≤ 0xFF19 →
        toHalfWidth [c] = [Char.ofNat (c.toNat - 0xFEE0)] := by
  refine ⟨by decide, by decide, ?_⟩
  intro c h1 h2
  simp [toHalfWidth, h1, h2]

/-- Witness for the amended C5 at the full-width digit `５`. -/
theorem claim5_amended_witness :
    toHalfWidth [Char.ofNat 0xFF15] = [Char.ofNat 0x35] :=
  claim5_amended.2.2 (Char.ofNat 0xFF15) (by decide) (by decide)

/-- C6: on the text `別表1 家賃限度額\n1級 100000\n2級 80000\n付則\n...`
the table extractor produces exactly one table titled
`別表1 家賃限度額` with two rows, and no cell carries text of the
following `付則` section. -/
theorem claim6_table_boundary :
    extractTables (jstr "別表1 家賃限度額\n1級 100000\n2級 80000\n付則\n...") =
      [TableData.mk (jstr "別表1 家賃限度額") []
        [[jstr "1級 100000"], [jstr "2級 80000"]]] := by
  decide

/-- C7: on `「住宅」とは、社員が居住する建物をいう。` the definition
extractor yields exactly one `RequirementItem` with category `定義`,
name `住宅`, description `社員が居住する建物をいう` and inputType
`text`; and in general every extracted item has category `定義` and
inputType `text` (one item per match of the definition idiom). -/
theorem claim7_definition_pattern :
    (extractInputItems (jstr "「住宅」とは、社員が居住する建物をいう。") =
      [RequirementItem.mk (jstr "定義") (jstr "住宅")
        (jstr "社員が居住する建物をいう") (some (jstr "text")) none]) ∧
      ∀ (t : JStr) (it : RequirementItem), it ∈ extractInputItems t →
        it.category = jstr "定義" ∧ it.inputType = some (jstr "text") := by
  refine ⟨by decide, ?_⟩
  intro t it hit
  simp only [extractInputItems, List.mem_map] at hit
  obtain ⟨m, -, rfl⟩ := hit
  exact ⟨rfl, rfl⟩

/-- Witness for C7: the general part applied to the concrete match. -/
theorem claim7_definition_pattern_witness :
    (RequirementItem.mk (jstr "定義") (jstr "住宅")
        (jstr "社員が居住する建物をいう") (some (jstr "text")) none).category =
      jstr "定義" :=
  (claim7_definition_pattern.2
    (jstr "「住宅」とは、社員が居住する建物をいう。") _
    (by rw [claim7_definition_pattern.1]; exact List.mem_singleton.mpr rfl)).1

/-- C9: on the empty input text each of the four heuristic extractors
returns the empty collection (and, being total Lean functions over all
strings, the embedded extractors cannot raise an error on any input). -/
theorem claim9_empty_extractors :
    extractInputItems (jstr "") = [] ∧ extractFormulas (jstr "") = [] ∧
      extractFees (jstr "") = [] ∧ extractTables (jstr "") = [] := by
  decide

/-- C10: the heuristic path of `extractRequirementsFromPDF` never
populates `calculationItems` or `otherRequirements`: both are the
empty list for every input. -/
theorem claim10_never_populated (data : PDFData) (visionText : JStr) :
    (extractRequirementsFromPDF data visionText).calculationItems = [] ∧
      (extractRequirementsFromPDF data visionText).otherRequirements = [] :=
  ⟨rfl, rfl⟩

/-! ## First-occurrence deduplication (for C8) -/

/-- First-occurrence deduplication: keep each element's first
occurrence, in order, and drop all later duplicates. -/
def dedupFirst : List JStr → List JStr
  | [] => []
  | x :: xs => x :: dedupFirst (xs.filter (fun y => decide (y ≠ x)))
termination_by l => l.length
decreasing_by
  simp only [List.length_cons]
  exact Nat.lt_succ_of_le (List.length_filter_le _ _)

/-- Elements of the deduplicated list come from the original list. -/
theorem mem_dedupFirst {x : JStr} : ∀ {l : List JStr}, x ∈ dedupFirst l → x ∈ l
  | [], h => by simp [dedupFirst] at h
  | y :: ys, h => by
    rw [dedupFirst] at h
    rcases List.mem_cons.mp h with h | h
    · exact h ▸ List.mem_cons_self _ _
    · exact List.mem_cons_of_mem _ (List.mem_of_mem_filter (mem_dedupFirst h))
termination_by l => l.length
decreasing_by
  simp only [List.length_cons]
  exact Nat.lt_succ_of_le (List.length_filter_le _ _)

/-- First-occurrence deduplication produces no duplicates. -/
theorem nodup_dedupFirst : ∀ l : List JStr, (dedupFirst l).Nodup
  | [] => by simp [dedupFirst]
  | x :: xs => by
    rw [dedupFirst]
    refine List.nodup_cons.mpr ⟨fun hx => ?_, nodup_dedupFirst _⟩
    have := List.of_mem_filter (mem_dedupFirst hx)
    simp at this
termination_by l => l.length
decreasing_by
  simp only [List.length_cons]
  exact Nat.lt_succ_of_le (List.length_filter_le _ _)

/-- The source's `includes`/`push` accumulation computes exactly
first-occurrence deduplication of the elements not already present. -/
theorem foldl_insertAbsent :
    ∀ (l : List JStr) (acc : List JStr),
      l.foldl (fun acc v => if v ∈ acc then acc else acc ++ [v]) acc =
        acc ++ dedupFirst (l.filter (fun x => decide (x ∉ acc)))
  | [], acc => by simp [dedupFirst]
  | x :: xs, acc => by
    simp only [List.foldl_cons, List.filter_cons]
    by_cases hx : x ∈ acc
    · rw [if_pos hx]
      have hd : (decide (x ∉ acc)) = false := by simp [hx]
      rw [hd]
      simp only [Bool.false_eq_true, if_false]
      exact foldl_insertAbsent xs acc
    · rw [if_neg hx]
      have hd : (decide (x ∉ acc)) = true := by simp [hx]
      rw [hd]
      simp only [if_true]
      rw [foldl_insertAbsent xs (acc ++ [x])]
      have hfil : xs.filter (fun y => decide (y ∉ acc ++ [x])) =
          (xs.filter (fun y => decide (y ∉ acc))).filter
            (fun y => decide (y ≠ x)) := by
        rw [List.filter_filter]
        apply List.filter_congr
        intro y _
        by_cases h1 : y = x <;> by_cases h2 : y ∈ acc <;> simp [h1, h2]
      rw [hfil, dedupFirst, List.append_assoc, List.singleton_append]

/-- C8: the variable-name extraction deduplicates by exact string
equality, keeping first occurrences in order: it equals the
first-occurrence deduplication of the raw pattern matches, and hence
has no duplicates; in particular a description containing `使用料`
twice (two raw matches) yields exactly one entry, at the position of
its first occurrence. -/
theorem claim8_variables_dedup :
    (∀ desc : JStr,
        extractVariables desc = dedupFirst (variableMatches desc) ∧
          (extractVariables desc).Nodup) ∧
      variableMatches (jstr "使用料は、使用料とする") =
        [jstr "使用料", jstr "使用料"] ∧
      extractVariables (jstr "使用料は、使用料とする") = [jstr "使用料"] := by
  have key : ∀ desc : JStr,
      extractVariables desc = dedupFirst (variableMatches desc) := by
    intro desc
    unfold extractVariables
    rw [foldl_insertAbsent]
    simp
  refine ⟨fun desc => ⟨key desc, ?_⟩, by decide, by decide⟩
  rw [key desc]
  exact nodup_dedupFirst _

/-! ## Properties of the matcher engine -/

/-- `Option.map` preserves `isSome`. -/
theorem mapIsSome {α β : Type} (f : α → β) (o : Option α) :
    (o.map f).isSome = o.isSome := by cases o <;> rfl

/-- The takeWhile segment is never longer than the list. -/
theorem takeWhileLenLe (p : Char → Bool) (xs : List Char) :
    (xs.takeWhile p).length ≤ xs.length := by
  induction xs with
  | nil => simp
  | cons x xs ih =>
    by_cases hx : p x
    · simp only [List.takeWhile_cons, if_pos hx, List.length_cons]
      omega
    · simp [List.takeWhile_cons, hx]

/-- A whitespace-run prefix only grows when the string is extended. -/
theorem takeWhile_len_append_le (p : Char → Bool) (xs ys : List Char) :
    (xs.takeWhile p).length ≤ ((xs ++ ys).takeWhile p).length := by
  induction xs with
  | nil => simp
  | cons x xs ih =>
    by_cases hx : p x
    · simpa [List.takeWhile_cons, hx] using ih
    · simp [List.takeWhile_cons, hx]

/-- Inversion of a successful greedy repetition: some count `j` between
`lo` and `k` was consumed and the continuation succeeded after it. -/
theorem greedyFrom_eq_some {cont : List Char → Option (List Nat)}
    {xs : List Char} {lo : Nat} :
    ∀ {k : Nat} {res : List Nat}, greedyFrom cont xs lo k = some res →
      ∃ j ns, res = j :: ns ∧ lo ≤ j ∧ j ≤ k ∧ cont (xs.drop j) = some ns := by
  intro k
  induction k with
  | zero =>
    intro res h
    simp only [greedyFrom] at h
    split at h
    · rcases Option.map_eq_some'.mp h with ⟨ns, hns, rfl⟩
      exact ⟨0, ns, rfl, by omega, le_refl 0, by simpa using hns⟩
    · exact absurd h (by simp)
  | succ k ih =>
    intro res h
    simp only [greedyFrom] at h
    split at h
    · exact absurd h (by simp)
    · rename_i hlo
      cases hc : cont (xs.drop (k + 1)) with
      | some ns =>
        rw [hc] at h
        exact ⟨k + 1, ns, by simpa using h.symm, by omega, le_refl _, hc⟩
      | none =>
        rw [hc] at h
        obtain ⟨j, ns, rfl, h1, h2, h3⟩ := ih h
        exact ⟨j, ns, rfl, h1, by omega, h3⟩

/-- A greedy repetition succeeds as soon as some feasible count does. -/
theorem greedyFrom_isSome {cont : List Char → Option (List Nat)}
    {xs : List Char} {lo j : Nat} (h1 : lo ≤ j)
    (h3 : (cont (xs.drop j)).isSome) :
    ∀ {k : Nat}, j ≤ k → (greedyFrom cont xs lo k).isSome := by
  intro k
  induction k with
  | zero =>
    intro hk
    have hj : j = 0 := Nat.le_zero.mp hk
    subst hj
    simp only [greedyFrom, if_pos (Nat.le_zero.mp h1), mapIsSome]
    simpa using h3
  | succ k ih =>
    intro hk
    simp only [greedyFrom]
    rw [if_neg (by omega)]
    cases hc : cont (xs.drop (k + 1)) with
    | some ns => simp
    | none =>
      rcases Nat.lt_or_ge j (k + 1) with hj | hj
      · exact ih (by omega)
      · have : j = k + 1 := by omega
        subst this
        rw [hc] at h3
        exact absurd h3 (by simp)

/-- A prefix test that succeeds on a string still succeeds after the
string is extended on the right. -/
theorem take_eq_of_take_append {l xs ys : List Char}
    (h : xs.take l.length = l) : (xs ++ ys).take l.length = l := by
  have hlen : l.length ≤ xs.length := by
    have := congrArg List.length h
    simp only [List.length_take] at this
    omega
  rw [List.take_append_of_le_length hlen, h]

/-- Ordered alternation is monotone under extension of the input, given
that the continuation is. -/
theorem tryAlts_append {cont : List Char → Option (List Nat)}
    {ys : List Char}
    (hc : ∀ zs, (cont zs).isSome → (cont (zs ++ ys)).isSome) :
    ∀ (ls : List (List Char)) (xs : List Char),
      (tryAlts cont ls xs).isSome → (tryAlts cont ls (xs ++ ys)).isSome := by
  intro ls
  induction ls with
  | nil => intro xs h; simp [tryAlts] at h
  | cons l ls ih =>
    intro xs h
    simp only [tryAlts] at h ⊢
    by_cases hpre : xs.take l.length = l
    · rw [if_pos hpre] at h
      have hlen : l.length ≤ xs.length := by
        have := congrArg List.length hpre
        simp only [List.length_take] at this
        omega
      rw [if_pos (take_eq_of_take_append hpre)]
      rw [List.drop_append_of_le_length hlen]
      cases hco : cont (xs.drop l.length) with
      | some ns =>
        have := hc (xs.drop l.length) (by simp [hco])
        rcases Option.isSome_iff_exists.mp this with ⟨ns', hns'⟩
        simp [hns']
      | none =>
        rw [hco] at h
        have htail := ih xs h
        cases hco' : cont (xs.drop l.length ++ ys) with
        | some ns' => simp
        | none => simpa using htail
    · rw [if_neg hpre] at h
      have htail := ih xs h
      by_cases hpre' : (xs ++ ys).take l.length = l
      · rw [if_pos hpre']
        cases hco' : cont ((xs ++ ys).drop l.length) with
        | some ns' => simp
        | none => simpa using htail
      · rw [if_neg hpre']
        exact htail

/-- Monotonicity of the matcher: a match of a token list against a
string is still a match (possibly of different extent) after the string
is extended on the right.  This is what makes the source's linear
patterns truncation-safe: a pattern that matches inside a truncated
fragment also matched there in the full text. -/
theorem matchToks_append :
    ∀ (ts : List Tok) (xs ys : List Char),
      (matchToks ts xs).isSome → (matchToks ts (xs ++ ys)).isSome := by
  intro ts
  induction ts with
  | nil => intro xs ys _; simp [matchToks]
  | cons t ts ih =>
    intro xs ys h
    cases t with
    | lit c =>
      cases xs with
      | nil => simp [matchToks] at h
      | cons x xs' =>
        simp only [matchToks, List.cons_append] at h ⊢
        by_cases hx : x = c
        · rw [if_pos hx] at h ⊢
          rw [mapIsSome] at h ⊢
          exact ih xs' ys h
        · rw [if_neg hx] at h
          simp at h
    | cls p =>
      cases xs with
      | nil => simp [matchToks] at h
      | cons x xs' =>
        simp only [matchToks, List.cons_append] at h ⊢
        by_cases hx : p x
        · rw [if_pos hx] at h ⊢
          rw [mapIsSome] at h ⊢
          exact ih xs' ys h
        · rw [if_neg hx] at h
          simp at h
    | opt p =>
      cases xs with
      | nil =>
        simp only [matchToks, mapIsSome] at h
        have hys : (matchToks ts ys).isSome := by
          have := ih [] ys h
          simpa using this
        simp only [List.nil_append]
        cases ys with
        | nil => simpa [matchToks, mapIsSome] using hys
        | cons y ys' =>
          simp only [matchToks]
          by_cases hy : p y
          · rw [if_pos hy]
            cases hco : matchToks ts ys' with
            | some ns => simp
            | none => simpa [mapIsSome] using hys
          · rw [if_neg hy]
            simpa [mapIsSome] using hys
      | cons x xs' =>
        simp only [matchToks, List.cons_append] at h ⊢
        by_cases hx : p x
        · rw [if_pos hx] at h ⊢
          cases hco : matchToks ts xs' with
          | some ns =>
            have := ih xs' ys (by simp [hco])
            rcases Option.isSome_iff_exists.mp this with ⟨ns', hns'⟩
            simp [hns']
          | none =>
            rw [hco] at h
            rw [mapIsSome] at h
            have hext := ih (x :: xs') ys h
            cases hco' : matchToks ts (xs' ++ ys) with
            | some ns' => simp
            | none => simpa [mapIsSome, List.cons_append] using hext
        · rw [if_neg hx] at h ⊢
          rw [mapIsSome] at h
          have hext := ih (x :: xs') ys h
          simpa [mapIsSome, List.cons_append] using hext
    | star p =>
      simp only [matchToks] at h ⊢
      obtain ⟨j, ns, -, h1, h2, h3⟩ :=
        greedyFrom_eq_some (Option.isSome_iff_exists.mp h).choose_spec
      have hjlen : j ≤ xs.length :=
        le_trans h2 (takeWhileLenLe p xs)
      have hds : ((xs ++ ys).drop j) = xs.drop j ++ ys :=
        List.drop_append_of_le_length hjlen
      refine greedyFrom_isSome h1 ?_ (le_trans h2 (takeWhile_len_append_le p xs ys))
      rw [hds]
      exact ih _ ys (by simp [h3])
    | plus p =>
      simp only [matchToks] at h ⊢
      obtain ⟨j, ns, -, h1, h2, h3⟩ :=
        greedyFrom_eq_some (Option.isSome_iff_exists.mp h).choose_spec
      have hjlen : j ≤ xs.length :=
        le_trans h2 (takeWhileLenLe p xs)
      have hds : ((xs ++ ys).drop j) = xs.drop j ++ ys :=
        List.drop_append_of_le_length hjlen
      refine greedyFrom_isSome h1 ?_ (le_trans h2 (takeWhile_len_append_le p xs ys))
      rw [hds]
      exact ih _ ys (by simp [h3])
    | repMin p lo =>
      simp only [matchToks] at h ⊢
      obtain ⟨j, ns, -, h1, h2, h3⟩ :=
        greedyFrom_eq_some (Option.isSome_iff_exists.mp h).choose_spec
      have hjlen : j ≤ xs.length :=
        le_trans h2 (takeWhileLenLe p xs)
      have hds : ((xs ++ ys).drop j) = xs.drop j ++ ys :=
        List.drop_append_of_le_length hjlen
      refine greedyFrom_isSome h1 ?_ (le_trans h2 (takeWhile_len_append_le p xs ys))
      rw [hds]
      exact ih _ ys (by simp [h3])
    | rep p lo hi =>
      simp only [matchToks] at h ⊢
      obtain ⟨j, ns, -, h1, h2, h3⟩ :=
        greedyFrom_eq_some (Option.isSome_iff_exists.mp h).choose_spec
      have hjlen : j ≤ xs.length := by
        have := le_trans h2 (min_le_right hi ((xs.takeWhile p).length))
        exact le_trans this (takeWhileLenLe p xs)
      have hds : ((xs ++ ys).drop j) = xs.drop j ++ ys :=
        List.drop_append_of_le_length hjlen
      have hk : j ≤ min hi (((xs ++ ys).takeWhile p).length) := by
        have h2a : j ≤ hi := le_trans h2 (min_le_left _ _)
        have h2b : j ≤ (xs.takeWhile p).length :=
          le_trans h2 (min_le_right _ _)
        exact le_min h2a (le_trans h2b (takeWhile_len_append_le p xs ys))
      refine greedyFrom_isSome h1 ?_ hk
      rw [hds]
      exact ih _ ys (by simp [h3])
    | alts ls =>
      simp only [matchToks] at h ⊢
      exact tryAlts_append (fun zs hz => ih zs ys hz) ls xs h

/-! ## Properties of the splitter -/

/-- Inversion of a found delimiter: the matcher succeeds at position
`p` (within the string) and fails at every earlier position. -/
theorem findM_some_inv {m : List Char → Option Nat} :
    ∀ {cs : List Char} {p len : Nat}, findM m cs = some (p, len) →
      m (cs.drop p) = some len ∧ p ≤ cs.length ∧
        ∀ q < p, m (cs.drop q) = none := by
  intro cs
  induction cs with
  | nil =>
    intro p len h
    simp only [findM] at h
    cases hm : m [] with
    | some k =>
      rw [hm] at h
      simp only [Option.some.injEq, Prod.mk.injEq] at h
      obtain ⟨rfl, rfl⟩ := h
      exact ⟨by simpa using hm, le_refl 0, by omega⟩
    | none => rw [hm] at h; exact absurd h (by simp)
  | cons c t ih =>
    intro p len h
    simp only [findM] at h
    cases hm : m (c :: t) with
    | some k =>
      rw [hm] at h
      simp only [Option.some.injEq, Prod.mk.injEq] at h
      obtain ⟨rfl, rfl⟩ := h
      exact ⟨by simpa using hm, by simp, by omega⟩
    | none =>
      rw [hm] at h
      rcases Option.map_eq_some'.mp h with ⟨⟨p', len'⟩, hfind, heq⟩
      have hp : p = p' + 1 := by
        have := (Prod.mk.injEq .. ▸ heq).1
        omega
      have hl : len = len' := by
        have := (Prod.mk.injEq .. ▸ heq).2
        exact this.symm
      subst hp; subst hl
      obtain ⟨h1, h2, h3⟩ := ih hfind
      refine ⟨by simpa using h1, by simpa using Nat.succ_le_succ h2, ?_⟩
      intro q hq
      cases q with
      | zero => simpa using hm
      | succ q' => simpa using h3 q' (by omega)

/-- If no delimiter is found, the matcher fails at every position. -/
theorem findM_none_inv {m : List Char → Option Nat} :
    ∀ {cs : List Char}, findM m cs = none → ∀ q, m (cs.drop q) = none := by
  intro cs
  induction cs with
  | nil =>
    intro h q
    simp only [findM] at h
    cases hm : m [] with
    | some k => rw [hm] at h; exact absurd h (by simp)
    | none => simpa using hm
  | cons c t ih =>
    intro h q
    simp only [findM] at h
    cases hm : m (c :: t) with
    | some k => rw [hm] at h; exact absurd h (by simp)
    | none =>
      rw [hm] at h
      have htail : findM m t = none := by
        cases hf : findM m t with
        | some pk => rw [hf] at h; exact absurd h (by simp)
        | none => rfl
      cases q with
      | zero => simpa using hm
      | succ q' => simpa using ih htail q'

/-- Conversely, a matcher failing at every position is never found. -/
theorem findM_of_all_none {m : List Char → Option Nat} :
    ∀ {cs : List Char}, (∀ q, m (cs.drop q) = none) → findM m cs = none := by
  intro cs
  induction cs with
  | nil =>
    intro h
    simp only [findM]
    rw [show m [] = none from by simpa using h 0]
  | cons c t ih =>
    intro h
    simp only [findM]
    rw [show m (c :: t) = none from by simpa using h 0]
    rw [ih (fun q => by simpa using h (q + 1))]
    rfl

/-- No fragment produced by the splitter contains a delimiter match:
every position of every fragment was either tested and rejected during
the scan (rejection in context implies rejection of the truncated
fragment, by monotonicity) or lies at the fragment's end. -/
theorem splitGoM_no_delim {m : List Char → Option Nat}
    (Hpos : ∀ xs k, m xs = some k → 1 ≤ k)
    (Hmono : ∀ xs ys k, m xs = some k → (m (xs ++ ys)).isSome)
    (Hnil : m [] = none) :
    ∀ (fuel : Nat) (cs : List Char), cs.length ≤ fuel →
      ∀ frag ∈ splitGoM m fuel cs, ∀ q, m (frag.drop q) = none := by
  intro fuel
  induction fuel with
  | zero =>
    intro cs hlen frag hfrag q
    have : cs = [] := List.length_eq_zero.mp (Nat.le_zero.mp hlen)
    subst this
    simp only [splitGoM, List.mem_singleton] at hfrag
    subst hfrag
    simpa using Hnil
  | succ fuel ih =>
    intro cs hlen frag hfrag q
    simp only [splitGoM] at hfrag
    cases hfind : findM m cs with
    | none =>
      rw [hfind] at hfrag
      simp only [List.mem_singleton] at hfrag
      subst hfrag
      exact findM_none_inv hfind q
    | some pk =>
      obtain ⟨p, len⟩ := pk
      rw [hfind] at hfrag
      obtain ⟨hm, hple, hnone⟩ := findM_some_inv hfind
      have hlen1 : 1 ≤ len := Hpos _ _ hm
      have hmax : max 1 len = len := by omega
      rcases List.mem_cons.mp hfrag with rfl | htail
      · -- the fragment before the delimiter
        rcases Nat.lt_or_ge q p with hq | hq
        · -- a position inside the fragment: fails in context, so here
          cases hdel : m ((cs.take p).drop q) with
          | none => rfl
          | some k =>
            exfalso
            have hsplit : (cs.take p).drop q ++ (cs.drop q).drop (p - q) =
                cs.drop q := by
              rw [List.drop_take, List.take_append_drop]
            have := Hmono _ ((cs.drop q).drop (p - q)) _ hdel
            rw [hsplit] at this
            rw [hnone q hq] at this
            simp at this
        · -- beyond the fragment: the suffix is empty
          have : (cs.take p).drop q = [] := by
            apply List.drop_eq_nil_of_le
            simp only [List.length_take]
            omega
          rw [this, Hnil]
      · -- fragments of the recursive call
        have hrec : (cs.drop (p + max 1 len)).length ≤ fuel := by
          simp only [List.length_drop]
          omega
        exact ih _ hrec frag htail q

/-- A string in which the delimiter matches nowhere splits into the
one-element list containing exactly that string. -/
theorem splitM_self {m : List Char → Option Nat} {frag : List Char}
    (h : ∀ q, m (frag.drop q) = none) : splitM m frag = [frag] := by
  cases frag with
  | nil => rfl
  | cons x t =>
    show splitGoM m (t.length + 1) (x :: t) = [x :: t]
    simp only [splitGoM]
    rw [findM_of_all_none h]

/-- Splitting any fragment of a split again yields only that fragment. -/
theorem split_frag_resplit {m : List Char → Option Nat}
    (Hpos : ∀ xs k, m xs = some k → 1 ≤ k)
    (Hmono : ∀ xs ys k, m xs = some k → (m (xs ++ ys)).isSome)
    (Hnil : m [] = none)
    {cs frag : List Char} (h : frag ∈ splitM m cs) :
    splitM m frag = [frag] :=
  splitM_self
    (splitGoM_no_delim Hpos Hmono Hnil cs.length cs (le_refl _) frag h)

/-- A match of a literal-headed token list consumes that literal. -/
theorem matchToks_lit_head {c : Char} {ts : List Tok} {xs : List Char}
    {ns : List Nat} (h : matchToks (Tok.lit c :: ts) xs = some ns) :
    ∃ ns', ns = 1 :: ns' := by
  cases xs with
  | nil => simp [matchToks] at h
  | cons x xs' =>
    simp only [matchToks] at h
    split at h
    · rcases Option.map_eq_some'.mp h with ⟨a, -, heq⟩
      exact ⟨a, heq.symm⟩
    · simp at h

/-- The native page delimiter consumes at least one character. -/
theorem pageDelimM_pos (xs : List Char) (k : Nat)
    (h : pageDelimM xs = some k) : 1 ≤ k := by
  unfold pageDelimM at h
  rcases Option.map_eq_some'.mp h with ⟨ns, hns, rfl⟩
  obtain ⟨ns', rfl⟩ := matchToks_lit_head
    (show matchToks (Tok.lit '\n' ::
      [Tok.star isWs, Tok.lit '-', Tok.star isWs, Tok.plus isAsciiDigit,
       Tok.star isWs, Tok.lit '-', Tok.star isWs, Tok.lit '\n']) xs =
        some ns from hns)
  simp

/-- The native page delimiter is monotone under input extension. -/
theorem pageDelimM_mono (xs ys : List Char) (k : Nat)
    (h : pageDelimM xs = some k) : (pageDelimM (xs ++ ys)).isSome := by
  unfold pageDelimM at h ⊢
  rw [mapIsSome]
  rcases Option.map_eq_some'.mp h with ⟨ns, hns, -⟩
  exact matchToks_append _ xs ys (by simp [hns])

/-- The vision-fallback marker consumes at least one character. -/
theorem visionDelimM_pos (xs : List Char) (k : Nat)
    (h : visionDelimM xs = some k) : 1 ≤ k := by
  unfold visionDelimM at h
  rcases Option.map_eq_some'.mp h with ⟨ns, hns, rfl⟩
  have hv : visionDelimToks =
      Tok.lit '-' :: (jstr "-- ページ区切り ---").map Tok.lit := rfl
  rw [hv] at hns
  obtain ⟨ns', rfl⟩ := matchToks_lit_head hns
  simp

/-- The vision-fallback marker is monotone under input extension. -/
theorem visionDelimM_mono (xs ys : List Char) (k : Nat)
    (h : visionDelimM xs = some k) : (visionDelimM (xs ++ ys)).isSome := by
  unfold visionDelimM at h ⊢
  rw [mapIsSome]
  rcases Option.map_eq_some'.mp h with ⟨ns, hns, -⟩
  exact matchToks_append _ xs ys (by simp [hns])

/-- C4: page splitting is idempotent.  Every fragment produced by the
native-path split (footer pattern) or the vision-path split (literal
marker), after dropping blank fragments, re-splits on the same
delimiter into exactly the one-element sequence containing itself. -/
theorem claim4_split_idempotent (cs frag : JStr) :
    (frag ∈ nativePages cs → splitM pageDelimM frag = [frag]) ∧
      (frag ∈ visionPages cs → splitM visionDelimM frag = [frag]) := by
  constructor
  · intro h
    exact split_frag_resplit pageDelimM_pos pageDelimM_mono rfl
      (List.mem_of_mem_filter h)
  · intro h
    exact split_frag_resplit visionDelimM_pos visionDelimM_mono rfl
      (List.mem_of_mem_filter h)

/-- Witness for C4 on concrete two-page documents of each path. -/
theorem claim4_split_idempotent_witness :
    splitM pageDelimM (jstr "前文") = [jstr "前文"] ∧
      splitM visionDelimM (jstr "後文") = [jstr "後文"] :=
  ⟨(claim4_split_idempotent (jstr "前文\n- 1 -\n本文") (jstr "前文")).1
      (by decide),
   (claim4_split_idempotent (jstr "後文--- ページ区切り ---次") (jstr "後文")).2
      (by decide)⟩

/-! ## Characters consumed by a match -/

/-- The characters a single token can consume. -/
def tokChar : Tok → Char → Bool
  | Tok.lit c', c => c = c'
  | Tok.cls p, c => p c
  | Tok.opt p, c => p c
  | Tok.star p, c => p c
  | Tok.plus p, c => p c
  | Tok.repMin p _, c => p c
  | Tok.rep p _ _, c => p c
  | Tok.alts ls, c => ls.any (fun l => decide (c ∈ l))

/-- The characters a token list can consume. -/
def toksChar (ts : List Tok) (c : Char) : Bool :=
  ts.any (fun t => tokChar t c)

/-- Unfolding `toksChar` over a cons. -/
theorem toksChar_cons (t : Tok) (ts : List Tok) (c : Char) :
    toksChar (t :: ts) c = (tokChar t c || toksChar ts c) := by
  simp [toksChar]

/-- Elements within the takeWhile-prefix satisfy the predicate. -/
theorem mem_take_of_le_takeWhile {p : Char → Bool} :
    ∀ {xs : List Char} {j : Nat}, j ≤ (xs.takeWhile p).length →
      ∀ c ∈ xs.take j, p c = true := by
  intro xs
  induction xs with
  | nil => intro j hj c hc; simp at hc
  | cons x xs ih =>
    intro j hj c hc
    cases j with
    | zero => simp at hc
    | succ j' =>
      by_cases hx : p x
      · rw [List.takeWhile_cons, if_pos hx] at hj
        simp only [List.length_cons, Nat.succ_le_succ_iff] at hj
        simp only [List.take_succ_cons, List.mem_cons] at hc
        rcases hc with rfl | hc
        · exact hx
        · exact ih hj c hc
      · rw [List.takeWhile_cons, if_neg hx] at hj
        simp at hj

/-- Inversion of a successful alternation: some word of the list was
taken as a prefix and the continuation succeeded after it. -/
theorem tryAlts_eq_some {cont : List Char → Option (List Nat)} :
    ∀ {ls : List (List Char)} {xs : List Char} {res : List Nat},
      tryAlts cont ls xs = some res →
      ∃ l ∈ ls, ∃ ns, res = l.length :: ns ∧ xs.take l.length = l ∧
        cont (xs.drop l.length) = some ns := by
  intro ls
  induction ls with
  | nil => intro xs res h; simp [tryAlts] at h
  | cons l ls ih =>
    intro xs res h
    simp only [tryAlts] at h
    by_cases hpre : xs.take l.length = l
    · rw [if_pos hpre] at h
      cases hco : cont (xs.drop l.length) with
      | some ns =>
        rw [hco] at h
        exact ⟨l, List.mem_cons_self _ _, ns, by simpa using h.symm, hpre, hco⟩
      | none =>
        rw [hco] at h
        obtain ⟨l', hl', ns, h1, h2, h3⟩ := ih h
        exact ⟨l', List.mem_cons_of_mem _ hl', ns, h1, h2, h3⟩
    · rw [if_neg hpre] at h
      obtain ⟨l', hl', ns, h1, h2, h3⟩ := ih h
      exact ⟨l', List.mem_cons_of_mem _ hl', ns, h1, h2, h3⟩

/-- Every character consumed by a successful match is admitted by one
of the pattern's tokens. -/
theorem matchToks_chars :
    ∀ (ts : List Tok) (xs : List Char) (ns : List Nat),
      matchToks ts xs = some ns →
      ∀ c ∈ xs.take ns.sum, toksChar ts c = true := by
  intro ts
  induction ts with
  | nil =>
    intro xs ns h c hc
    simp only [matchToks, Option.some.injEq] at h
    subst h
    simp at hc
  | cons t ts ih =>
    have hgreedy : ∀ (p : Char → Bool) (lo k : Nat) (xs : List Char)
        (ns : List Nat), k ≤ (xs.takeWhile p).length →
        greedyFrom (matchToks ts) xs lo k = some ns →
        ∀ c ∈ xs.take ns.sum, (p c = true ∨ toksChar ts c = true) := by
      intro p lo k xs ns hk h c hc
      obtain ⟨j, ns', rfl, -, h2, h3⟩ := greedyFrom_eq_some h
      rw [List.sum_cons, List.take_add] at hc
      rcases List.mem_append.mp hc with hc | hc
      · exact Or.inl (mem_take_of_le_takeWhile (le_trans h2 hk) c hc)
      · exact Or.inr (ih _ _ h3 c hc)
    intro xs ns h c hc
    cases t with
    | lit ch =>
      cases xs with
      | nil => simp [matchToks] at h
      | cons x xs' =>
        simp only [matchToks] at h
        split at h
        · rename_i hx
          rcases Option.map_eq_some'.mp h with ⟨ns', hns', rfl⟩
          rw [List.sum_cons, Nat.add_comm, List.take_succ_cons] at hc
          rcases List.mem_cons.mp hc with rfl | hc2
          · rw [toksChar_cons]
            simp [tokChar, hx]
          · rw [toksChar_cons, ih xs' ns' hns' c hc2, Bool.or_true]
        · simp at h
    | cls p =>
      cases xs with
      | nil => simp [matchToks] at h
      | cons x xs' =>
        simp only [matchToks] at h
        split at h
        · rename_i hx
          rcases Option.map_eq_some'.mp h with ⟨ns', hns', rfl⟩
          rw [List.sum_cons, Nat.add_comm, List.take_succ_cons] at hc
          rcases List.mem_cons.mp hc with rfl | hc2
          · rw [toksChar_cons]
            simp [tokChar, hx]
          · rw [toksChar_cons, ih xs' ns' hns' c hc2, Bool.or_true]
        · simp at h
    | opt p =>
      cases xs with
      | nil =>
        rcases Option.map_eq_some'.mp h with ⟨ns', -, rfl⟩
        simp at hc
      | cons x xs' =>
        simp only [matchToks] at h
        by_cases hx : p x
        · rw [if_pos hx] at h
          cases hco : matchToks ts xs' with
          | some ns0 =>
            rw [hco] at h
            obtain rfl : ns = 1 :: ns0 := by simpa using h.symm
            rw [List.sum_cons, Nat.add_comm, List.take_succ_cons] at hc
            rcases List.mem_cons.mp hc with rfl | hc2
            · rw [toksChar_cons]
              simp [tokChar, hx]
            · rw [toksChar_cons, ih xs' ns0 hco c hc2, Bool.or_true]
          | none =>
            rw [hco] at h
            rcases Option.map_eq_some'.mp h with ⟨ns1, hns1, rfl⟩
            rw [List.sum_cons, Nat.zero_add] at hc
            rw [toksChar_cons, ih _ ns1 hns1 c hc, Bool.or_true]
        · rw [if_neg hx] at h
          rcases Option.map_eq_some'.mp h with ⟨ns1, hns1, rfl⟩
          rw [List.sum_cons, Nat.zero_add] at hc
          rw [toksChar_cons, ih _ ns1 hns1 c hc, Bool.or_true]
    | star p =>
      simp only [matchToks] at h
      rcases hgreedy p 0 _ xs ns (le_refl _) h c hc with hp | ht
      · rw [toksChar_cons]; simp [tokChar, hp]
      · rw [toksChar_cons, ht, Bool.or_true]
    | plus p =>
      simp only [matchToks] at h
      rcases hgreedy p 1 _ xs ns (le_refl _) h c hc with hp | ht
      · rw [toksChar_cons]; simp [tokChar, hp]
      · rw [toksChar_cons, ht, Bool.or_true]
    | repMin p lo =>
      simp only [matchToks] at h
      rcases hgreedy p lo _ xs ns (le_refl _) h c hc with hp | ht
      · rw [toksChar_cons]; simp [tokChar, hp]
      · rw [toksChar_cons, ht, Bool.or_true]
    | rep p lo hi =>
      simp only [matchToks] at h
      rcases hgreedy p lo _ xs ns (min_le_right _ _) h c hc with hp | ht
      · rw [toksChar_cons]; simp [tokChar, hp]
      · rw [toksChar_cons, ht, Bool.or_true]
    | alts ls =>
      simp only [matchToks] at h
      obtain ⟨l, hl, ns1, rfl, hpre, hco⟩ := tryAlts_eq_some h
      rw [List.sum_cons, List.take_add] at hc
      rcases List.mem_append.mp hc with hc | hc
      · rw [hpre] at hc
        rw [toksChar_cons]
        have : tokChar (Tok.alts ls) c = true := by
          simp only [tokChar, List.any_eq_true]
          exact ⟨l, hl, by simpa using hc⟩
        simp [this]
      · rw [toksChar_cons, ih _ ns1 hco c hc, Bool.or_true]

/-- Characters that no delimiter can consume survive the split: each
such character of the input appears in some fragment. -/
theorem splitGoM_mem_char {m : List Char → Option Nat} {d : Char → Bool}
    (Hpos : ∀ xs k, m xs = some k → 1 ≤ k)
    (Hchar : ∀ zs k, m zs = some k → ∀ c ∈ zs.take k, d c = true) :
    ∀ (fuel : Nat) (cs : List Char), cs.length ≤ fuel →
      ∀ c ∈ cs, d c = false → ∃ frag ∈ splitGoM m fuel cs, c ∈ frag := by
  intro fuel
  induction fuel with
  | zero =>
    intro cs hlen c hc _
    have : cs = [] := List.length_eq_zero.mp (Nat.le_zero.mp hlen)
    subst this
    simp at hc
  | succ fuel ih =>
    intro cs hlen c hc hd
    simp only [splitGoM]
    cases hfind : findM m cs with
    | none => exact ⟨cs, List.mem_singleton.mpr rfl, hc⟩
    | some pk =>
      obtain ⟨p, len⟩ := pk
      obtain ⟨hm, hple, -⟩ := findM_some_inv hfind
      have hlen1 : 1 ≤ len := Hpos _ _ hm
      have hmax : max 1 len = len := by omega
      have hdecomp : cs = cs.take p ++ ((cs.drop p).take len ++
          cs.drop (p + len)) := by
        rw [← List.drop_drop, List.take_append_drop, List.take_append_drop]
      rw [hdecomp] at hc
      rcases List.mem_append.mp hc with hc1 | hc2
      · exact ⟨cs.take p, List.mem_cons_self _ _, hc1⟩
      · rcases List.mem_append.mp hc2 with hcd | hc3
        · exact absurd (Hchar _ _ hm c hcd) (by simp [hd])
        · have hrec : (cs.drop (p + max 1 len)).length ≤ fuel := by
            simp only [List.length_drop]
            omega
          have hc3' : c ∈ cs.drop (p + max 1 len) := by
            rw [hmax]
            exact hc3
          obtain ⟨frag, hfrag, hcf⟩ := ih _ hrec c hc3' hd
          exact ⟨frag, List.mem_cons_of_mem _ hfrag, hcf⟩

/-- If trimming yields the empty string, every character was
whitespace. -/
theorem jtrim_eq_nil {l : JStr} (h : jtrim l = []) :
    ∀ c ∈ l, isWs c = true := by
  intro c hc
  unfold jtrim at h
  rw [List.reverse_eq_nil_iff] at h
  have h2 : ∀ x ∈ (l.dropWhile isWs).reverse, isWs x = true :=
    List.dropWhile_eq_nil_iff.mp h
  have h3 : ∀ x ∈ l.dropWhile isWs, isWs x = true := by
    intro x hx
    exact h2 x (List.mem_reverse.mpr hx)
  rcases List.mem_append.mp
      ((List.takeWhile_append_dropWhile isWs l) ▸ hc) with hc1 | hc2
  · exact List.mem_takeWhile_imp hc1
  · exact h3 c hc2

/-- A Japanese-script character is not whitespace. -/
theorem japanese_not_ws {c : Char} (h : isJapaneseChar c = true) :
    isWs c = false := by
  simp only [isJapaneseChar, Bool.or_eq_true, Bool.and_eq_true,
    decide_eq_true_eq] at h
  simp only [isWs, Bool.or_eq_false_iff, Bool.and_eq_false_iff,
    decide_eq_false_iff_not]
  omega

/-- A character a native page delimiter can consume is never a
Japanese-script character. -/
theorem pageDelim_char_not_japanese {c : Char}
    (h : toksChar pageDelimToks c = true) : isJapaneseChar c = false := by
  simp only [pageDelimToks, toksChar, List.any_cons, List.any_nil,
    tokChar, Bool.or_eq_true, Bool.or_false, decide_eq_true_eq] at h
  simp only [isJapaneseChar, Bool.or_eq_false_iff, Bool.and_eq_false_iff,
    decide_eq_false_iff_not]
  rcases h with h | h
  · subst h; simp
  rcases h with h | h
  · simp only [isWs, Bool.or_eq_true, Bool.and_eq_true,
      decide_eq_true_eq] at h
    omega
  rcases h with h | h
  · subst h; simp
  rcases h with h | h
  · simp only [isWs, Bool.or_eq_true, Bool.and_eq_true,
      decide_eq_true_eq] at h
    omega
  rcases h with h | h
  · simp only [isAsciiDigit, Bool.and_eq_true, decide_eq_true_eq] at h
    omega
  rcases h with h | h
  · simp only [isWs, Bool.or_eq_true, Bool.and_eq_true,
      decide_eq_true_eq] at h
    omega
  rcases h with h | h
  · subst h; simp
  rcases h with h | h
  · simp only [isWs, Bool.or_eq_true, Bool.and_eq_true,
      decide_eq_true_eq] at h
    omega
  · subst h; simp

/-- Pages surviving the blank-page filter have non-empty trim. -/
theorem pages_filter_keep {p : JStr} {l : List JStr}
    (hp : p ∈ l.filter keepPage) : jtrim p ≠ [] := by
  have := (List.mem_filter.mp hp).2
  simpa [keepPage] using this

/-- C3 counterexample: with an image-only native pass (empty native
text) and a whitespace-only vision transcription, the produced
document has non-empty `rawText` but empty `pages` — `rawText`
non-empty does not imply `pages` non-empty. -/
theorem claim3_counterexample :
    (parsePDFBuffer (PDFData.mk [] 1 none none) (jstr " ")).rawText ≠ [] ∧
      (parsePDFBuffer (PDFData.mk [] 1 none none) (jstr " ")).pages = [] := by
  decide

/-- C3 (amended): no element of `pages` is empty or whitespace-only
(on either path); and on the native path — whenever the text passes
the 50-Japanese-character threshold — `pages` is non-empty.  (For
`rawText` that is non-empty but whitespace-only, `pages` can be empty;
see the counterexample.) -/
theorem claim3_amended (data : PDFData) (visionText : JStr) :
    (∀ p ∈ (parsePDFBuffer data visionText).pages, jtrim p ≠ []) ∧
      (JAPANESE_CHAR_THRESHOLD ≤ countJapaneseChars data.text →
        (parsePDFBuffer data visionText).pages ≠ []) := by
  have hsplit : (parsePDFBuffer data visionText).pages =
      (if JAPANESE_CHAR_THRESHOLD ≤ countJapaneseChars data.text
        then nativePages data.text else visionPages visionText) := by
    by_cases h : JAPANESE_CHAR_THRESHOLD ≤ countJapaneseChars data.text
    · rw [if_pos h]
      unfold parsePDFBuffer
      rw [if_pos h]
    · rw [if_neg h]
      unfold parsePDFBuffer
      rw [if_neg h]
      rfl
  constructor
  · intro p hp
    rw [hsplit] at hp
    split at hp
    · exact pages_filter_keep
        (show p ∈ (splitM pageDelimM data.text).filter keepPage from hp)
    · exact pages_filter_keep
        (show p ∈ (splitM visionDelimM visionText).filter keepPage from hp)
  · intro h50
    rw [hsplit, if_pos h50]
    have hpos : 0 < (data.text.filter isJapaneseChar).length := by
      have h50' := h50
      unfold countJapaneseChars at h50'
      unfold JAPANESE_CHAR_THRESHOLD at h50'
      omega
    obtain ⟨c, hcmem⟩ :=
      List.exists_mem_of_ne_nil _ (List.length_pos.mp hpos)
    have hcj : isJapaneseChar c = true := List.of_mem_filter hcmem
    have hct : c ∈ data.text := List.mem_of_mem_filter hcmem
    have hd : toksChar pageDelimToks c = false := by
      cases hh : toksChar pageDelimToks c
      · rfl
      · exact absurd (pageDelim_char_not_japanese hh) (by simp [hcj])
    have Hchar : ∀ zs k, pageDelimM zs = some k →
        ∀ ch ∈ zs.take k, toksChar pageDelimToks ch = true := by
      intro zs k h ch hch
      unfold pageDelimM at h
      rcases Option.map_eq_some'.mp h with ⟨ns, hns, rfl⟩
      exact matchToks_chars _ _ _ hns ch hch
    obtain ⟨frag, hfrag, hcf⟩ :=
      splitGoM_mem_char pageDelimM_pos Hchar data.text.length data.text
        (le_refl _) c hct hd
    have hkeep : keepPage frag = true := by
      simp only [keepPage, decide_eq_true_eq]
      intro hnil
      exact absurd (jtrim_eq_nil hnil c hcf) (by simp [japanese_not_ws hcj])
    exact List.ne_nil_of_mem (List.mem_filter.mpr ⟨hfrag, hkeep⟩)

/-- Witness for the amended C3 on a concrete Japanese document. -/
theorem claim3_amended_witness :
    jtrim (jstr "あいうえおあいうえおあいうえおあいうえおあいうえおあいうえおあいうえおあいうえおあいうえおあいうえお") ≠ [] ∧
      (parsePDFBuffer
        (PDFData.mk
          (jstr "あいうえおあいうえおあいうえおあいうえおあいうえおあいうえおあいうえおあいうえおあいうえおあいうえお")
          1 none none) (jstr "")).pages ≠ [] :=
  ⟨(claim3_amended
      (PDFData.mk
        (jstr "あいうえおあいうえおあいうえおあいうえおあいうえおあいうえおあいうえおあいうえおあいうえおあいうえお")
        1 none none) (jstr "")).1
      (jstr "あいうえおあいうえおあいうえおあいうえおあいうえおあいうえおあいうえおあいうえおあいうえおあいうえお")
      (by decide),
   (claim3_amended
      (PDFData.mk
        (jstr "あいうえおあいうえおあいうえおあいうえおあいうえおあいうえおあいうえおあいうえおあいうえおあいうえお")
        1 none none) (jstr "")).2 (by decide)⟩
